import Mathlib

/-!
Verification development for the-numbers NaNoGenMo book builder.

The embedded functions come from:
* `compose_missing_numbers.py` — `find_largest_string_decomposition` and the
  dimension contract of `concatenate_images_horizontally`;
* `utils.py` / `build_book.py` — `distribute_items_to_columns`
  (`distribute_numbers_to_columns` is a verbatim copy specialized to `int`);
* `build_book.py` — the pagination while-loop of `main` together with its
  `range_to_page` TOC bookkeeping and `finalizeToc` emission.

Python strings are modeled as `List Char`; Python `str(n)` for a nonnegative
integer is modeled by `toDecimal`; Python dict insertion order is modeled by
an association list with append-if-absent writes; the float arithmetic in
`concatenate_images_horizontally` (`int(max_height * (w / h))`) is modeled by
exact IEEE-754 binary64 semantics: a correctly-rounded division followed by a
correctly-rounded multiplication (53 significant bits, round to nearest, ties
to even, exponent unbounded — faithful whenever the integer dimensions are
below 2^53 and no overflow occurs, true of any real image), then truncation.
-/

/-- Decimal digit characters of `n`, accumulator style; models Python
`str(n)` for nonnegative `n`. The fuel argument is always called with at
least `n + 1`, which suffices since `n / 10 < n` for `n ≥ 10`. -/
def toDecimalAux : Nat → Nat → List Char → List Char
  | 0, _, acc => acc
  | fuel + 1, n, acc =>
    let c := Char.ofNat (48 + n % 10)
    if n < 10 then c :: acc else toDecimalAux fuel (n / 10) (c :: acc)

/-- Python `str(n)` as a list of characters. -/
def toDecimal (n : Nat) : List Char := toDecimalAux (n + 1) n []

/-- Inner loop of `find_largest_string_decomposition`: for chunk lengths
`k, k-1, …, 1` (longest first, mirroring `for end in range(len(target), pos, -1)`),
find an available number whose decimal string equals `s.take len`; return that
number with the matched length. -/
def tryLens (available : List Nat) (s : List Char) : Nat → Option (Nat × Nat)
  | 0 => none
  | k + 1 =>
    match available.find? (fun n => toDecimal n == s.take (k + 1)) with
    | some n => some (n, k + 1)
    | none => tryLens available s k

/-- Outer `while pos < len(target)` loop of `find_largest_string_decomposition`,
fuel-indexed; each successful match consumes at least one character, so fuel
`s.length` always suffices. -/
def decomposeFuel (available : List Nat) : Nat → List Char → Option (List Nat)
  | _, [] => some []
  | 0, _ :: _ => none
  | fuel + 1, s =>
    match tryLens available s s.length with
    | none => none
    | some (n, k) => (decomposeFuel available fuel (s.drop k)).map (n :: ·)

/-- Model of `find_largest_string_decomposition` (compose_missing_numbers.py):
greedy longest-prefix decomposition of the target's decimal character string
into decimal strings of available numbers; `none` models Python `None`. -/
def find_largest_string_decomposition (target : List Char) (available : List Nat) :
    Option (List Nat) :=
  decomposeFuel available target.length target

/-- The loop of `distribute_items_to_columns` (utils.py): state is
(columns, current column index, current column height, items used). -/
def distributeAux (numColumns targetHeight : Nat) :
    List (α × Nat × β) → List (List (α × β)) → Nat → Nat → Nat →
    List (List (α × β)) × Nat
  | [], cols, _, _, used => (cols, used)
  | (a, h, p) :: rest, cols, idx, curH, used =>
    if targetHeight < curH + h then
      if numColumns - 1 ≤ idx then (cols, used)
      else
        distributeAux numColumns targetHeight rest
          (List.modify (fun col => col ++ [(a, p)]) (idx + 1) cols) (idx + 1) h (used + 1)
    else
      distributeAux numColumns targetHeight rest
        (List.modify (fun col => col ++ [(a, p)]) idx cols) idx (curH + h) (used + 1)

/-- Model of `distribute_items_to_columns` (utils.py) and of its verbatim copy
`distribute_numbers_to_columns` (build_book.py): sequential column fill. -/
def distribute_items_to_columns (items : List (α × Nat × β))
    (numColumns targetHeight : Nat) : List (List (α × β)) × Nat :=
  distributeAux numColumns targetHeight items (List.replicate numColumns []) 0 0 0

/-- Bit length of a natural number (`0` for `0`), fuel style. -/
def bitlenAux : Nat → Nat → Nat
  | 0, _ => 0
  | fuel + 1, n => if n = 0 then 0 else bitlenAux fuel (n / 2) + 1

/-- Bit length of a natural number: the least `k` with `n < 2^k`. -/
def bitlen (n : Nat) : Nat := bitlenAux (n + 1) n

/-- Round the exact value `q + r / den` (with `r < den`) to the nearest
integer, ties to even. -/
def rne (q r den : Nat) : Nat :=
  if 2 * r < den then q
  else if den < 2 * r then q + 1
  else if q % 2 = 0 then q else q + 1

/-- Correctly-rounded IEEE-754 binary64 division of naturals: a pair (m, e)
with `fl(a / b) = m * 2^e`, the quotient rounded to 53 significant bits,
nearest, ties to even. The exponent is unbounded (no overflow, underflow or
subnormals), faithful for all realistic image dimensions. -/
def divRNE53 (a b : Nat) : Nat × Int :=
  let s : Int := 53 + (bitlen b : Int) - (bitlen a : Int)
  let num := a * 2 ^ (max s 0).toNat
  let den := b * 2 ^ (max (-s) 0).toNat
  if num / den < 2 ^ 53 then
    (rne (num / den) (num % den) den, -s)
  else
    let t := s - 1
    let num2 := a * 2 ^ (max t 0).toNat
    let den2 := b * 2 ^ (max (-t) 0).toNat
    (rne (num2 / den2) (num2 % den2) den2, -t)

/-- Correctly-rounded binary64 product of an exactly-representable natural
`c` with the float `m * 2^e`: `c * m` rounded to 53 significant bits,
nearest, ties to even. -/
def mulRNE53 (c m : Nat) (e : Int) : Nat × Int :=
  let p := c * m
  if p < 2 ^ 53 then (p, e)
  else
    let t := bitlen p - 53
    (rne (p / 2 ^ t) (p % 2 ^ t) (2 ^ t), e + t)

/-- `⌊m * 2^e⌋` for a natural mantissa and integer exponent. -/
def floorPow2 (m : Nat) (e : Int) : Nat :=
  if 0 ≤ e then m * 2 ^ e.toNat else m / 2 ^ (-e).toNat

/-- Python `new_width = int(max_height * (img.width / img.height))` in IEEE-754
double precision: correctly-rounded division `w / h`, correctly-rounded
multiplication by `maxHeight`, then truncation toward zero (floor, as all
quantities are nonnegative). -/
def pyResizedWidth (maxHeight w h : Nat) : Nat :=
  let d := divRNE53 w h
  let p := mulRNE53 maxHeight d.1 d.2
  floorPow2 p.1 p.2

/-- Dimension model of `concatenate_images_horizontally`
(compose_missing_numbers.py). Each image is a (width, height) pair; the
result is (total width, common height). An image whose height already equals
the maximum is kept as is; otherwise its new width is
`int(max_height * (width / height))` in double precision (`pyResizedWidth`). -/
def concatenate_images_horizontally (imgs : List (Nat × Nat)) : Nat × Nat :=
  let maxHeight := (imgs.map Prod.snd).foldr max 0
  let resized := imgs.map (fun wh =>
    if wh.2 = maxHeight then wh.1 else pyResizedWidth maxHeight wh.1 wh.2)
  (resized.sum, maxHeight)

/-- Modelled from the spec: the claimed dimension contract with each resized
width ROUNDED TO NEAREST integer pixel (ties rounded up),
`round (maxHeight * w / h) = ⌊(2 maxHeight w + h) / (2 h)⌋`. -/
def concatSpecNearest (imgs : List (Nat × Nat)) : Nat × Nat :=
  let maxHeight := (imgs.map Prod.snd).foldr max 0
  ((imgs.map (fun wh => (2 * maxHeight * wh.1 + wh.2) / (2 * wh.2))).sum, maxHeight)

/-- Modelled from the spec reading "new width = old width × commonHeight /
oldHeight" as EXACT RATIONAL truncation `⌊maxHeight * w / h⌋`, uniformly over
all images — an idealization the double-precision program does not satisfy. -/
def concatSpecFloor (imgs : List (Nat × Nat)) : Nat × Nat :=
  let maxHeight := (imgs.map Prod.snd).foldr max 0
  ((imgs.map (fun wh => maxHeight * wh.1 / wh.2)).sum, maxHeight)

/-- One write into `range_to_page` (build_book.py, main):
`if range_idx not in range_to_page: range_to_page[range_idx] = page`.
Dict insertion order is modeled by appending. -/
def recordRange1 (m : List (Int × Nat)) (r : Int) (page : Nat) : List (Int × Nat) :=
  if (m.lookup r).isSome then m else m ++ [(r, page)]

/-- `for range_idx in range(page_start_range, page_end_range + 1)` writes:
all blocks from `lo` to `hi` inclusive (no iterations when `hi < lo`). -/
def recordRanges (m : List (Int × Nat)) (lo hi : Int) (page : Nat) : List (Int × Nat) :=
  ((List.range' 0 (hi + 1 - lo).toNat).map (fun k => lo + k)).foldl
    (fun acc r => recordRange1 acc r page) m

/-- The per-page item list built by `build_page_html`: numbers
`cur, cur+1, …, cur+cnt-1` with their scaled heights (heights come from the
image files, abstracted as a function). -/
def pageItems (heights : Nat → Nat) (cur cnt : Nat) : List (Nat × Nat × Unit) :=
  (List.range' cur cnt).map (fun i => (i, heights i, ()))

def GRID_COLUMNS : Nat := 5

def COLUMN_TARGET_HEIGHT_PX : Nat := 640

/-- One iteration of the `while current_number <= max_number` loop in
`build_book.main`: lay out one page, record the TOC blocks this page touches
(block arithmetic in ℤ with floor division, as in Python), and return
(numbers_used, updated range_to_page). -/
def buildStep (heights : Nat → Nat) (numbersPerPage maxNumber cur pageNum : Nat)
    (m : List (Int × Nat)) : Nat × List (Int × Nat) :=
  let maxCount := min numbersPerPage (maxNumber - cur + 1)
  let used := (distribute_items_to_columns (pageItems heights cur maxCount)
      GRID_COLUMNS COLUMN_TARGET_HEIGHT_PX).2
  let endNumber : Int := (cur : Int) + used - 1
  let m' := recordRanges m (((cur : Int) - 1).fdiv 1000) ((endNumber - 1).fdiv 1000)
      (pageNum + 1)
  (used, m')

/-- The whole pagination while-loop of `build_book.main`, fuel-indexed.
Returns (final range_to_page, final cursor, final page counter, whether the
loop condition became false within the given fuel). -/
def buildRun (heights : Nat → Nat) (numbersPerPage maxNumber : Nat) :
    Nat → Nat → Nat → List (Int × Nat) → List (Int × Nat) × Nat × Nat × Bool
  | 0, cur, pg, m => (m, cur, pg, decide (maxNumber < cur))
  | fuel + 1, cur, pg, m =>
    if maxNumber < cur then (m, cur, pg, true)
    else
      let step := buildStep heights numbersPerPage maxNumber cur pg m
      buildRun heights numbersPerPage maxNumber fuel (cur + step.1) (pg + 1) step.2

/-- TOC finalization in `build_book.main`: iterate the recorded block keys in
sorted order and emit (range_start, range_end, first page). -/
def finalizeToc (m : List (Int × Nat)) (maxNumber : Nat) : List (Int × Int × Nat) :=
  ((m.map Prod.fst).mergeSort (fun a b => decide (a ≤ b))).map
    (fun r => (r * 1000 + 1, min (r * 1000 + 1000) (maxNumber : Int), (m.lookup r).getD 0))

/-- Accumulated height of one returned column when items are tagged with
their own heights: each placed cell is ((item, height), payload). -/
def colHeight (col : List ((α × Nat) × β)) : Nat := (col.map (fun x => x.1.2)).sum

-- sanity checks against the Python behavior
example : toDecimal 0 = ['0'] := by decide
example : toDecimal 123 = ['1', '2', '3'] := by decide
example :
    find_largest_string_decomposition ['1', '2', '3'] [1, 23] = some [1, 23] := by decide
example :
    find_largest_string_decomposition ['2', '3', '4'] [2, 3, 23] = none := by decide
example :
    distribute_items_to_columns [((0 : Nat), 40, ()), (1, 40, ()), (2, 40, ()),
      (3, 40, ()), (4, 40, ())] 2 100 =
      ([[(0, ()), (1, ())], [(2, ()), (3, ())]], 4) := by decide
example : concatenate_images_horizontally [(4, 5), (9, 7)] = (14, 7) := by decide

/-- C5: with availability set {1, 2, 3, 123, 45} and target "12345", the greedy
decomposition returns exactly [123, 45] — at every cursor position the longest
matching available chunk is chosen. -/
theorem decompose_greedy_12345 :
    find_largest_string_decomposition ['1', '2', '3', '4', '5'] [1, 2, 3, 123, 45] =
      some [123, 45] := by decide

/-- C2 counterexample: for numColumns = 2, targetHeight = 100 and the single
item (a, 150), the layout does NOT return ([[a], []], 1): the oversized item is
not placed into the first column. -/
theorem distribute_oversized_not_first_column :
    distribute_items_to_columns [((0 : Nat), 150, (0 : Nat))] 2 100 ≠
      ([[(0, 0)], []], 1) := by decide

/-- C2 amended: for numColumns = 2, targetHeight = 100, items = [(a, 150)], the
oversized item triggers a column advance and is placed into the second (freshly
advanced) column: columns = [[], [a]] and used = 1. -/
theorem distribute_oversized_second_column :
    distribute_items_to_columns [((0 : Nat), 150, (0 : Nat))] 2 100 =
      ([[], [(0, 0)]], 1) := by decide

/-- C4 counterexample: at the image list [(4,5), (9,7)] the code's composite
dimensions (truncated widths: 5 + 9 = 14) differ from the claimed
round-to-nearest contract (6 + 9 = 15). -/
theorem concat_images_not_nearest :
    concatenate_images_horizontally [(4, 5), (9, 7)] ≠
      concatSpecNearest [(4, 5), (9, 7)] := by decide

theorem foldr_max_le_of_mem : ∀ (l : List Nat), ∀ x ∈ l, x ≤ l.foldr max 0 := by
  intro l
  induction l with
  | nil => intro x hx; exact absurd hx (List.not_mem_nil x)
  | cons y ys ih =>
    intro x hx
    simp only [List.foldr_cons]
    rcases List.mem_cons.mp hx with rfl | hx
    · exact le_max_left _ _
    · exact le_trans (ih x hx) (le_max_right _ _)

theorem foldr_max_mem : ∀ (l : List Nat), l ≠ [] → l.foldr max 0 ∈ l := by
  intro l
  induction l with
  | nil => intro h; exact absurd rfl h
  | cons y ys ih =>
    intro _
    simp only [List.foldr_cons]
    rcases le_total (ys.foldr max 0) y with hle | hle
    · rw [max_eq_left hle]
      exact List.mem_cons_self _ _
    · rw [max_eq_right hle]
      cases hys : ys with
      | nil =>
        subst hys
        simp only [List.foldr_nil] at hle ⊢
        have hy : y = 0 := Nat.le_zero.mp hle
        simp [hy]
      | cons z zs =>
        subst hys
        exact List.mem_cons_of_mem _ (ih (by simp))

/-- C4 amended: for every nonempty image list, the common height is the
maximum input height — it bounds every input height and is attained; an image
already at the common height keeps its exact width, so an equal-height list
yields exactly (sum of original widths) × (common height); every other width
is `int(maxHeight * (w / h))` in double precision, the float product
truncated: at [(4,5),(9,7)] the canvas is 14 × 7 (widths 5 + 9, truncation),
not 15 × 7 (nearest), and at [(29,100),(1,200)] it is 58 × 200 (float width
57 + 1) while exact rational truncation would give 59 × 200. -/
theorem concat_images_dims :
    (∀ (imgs : List (Nat × Nat)), imgs ≠ [] →
        (∀ p ∈ imgs, p.2 ≤ (concatenate_images_horizontally imgs).2) ∧
        ∃ p ∈ imgs, p.2 = (concatenate_images_horizontally imgs).2) ∧
    (∀ (imgs : List (Nat × Nat)) (hc : Nat), imgs ≠ [] →
        (∀ p ∈ imgs, p.2 = hc) →
        concatenate_images_horizontally imgs = ((imgs.map Prod.fst).sum, hc)) ∧
    concatenate_images_horizontally [(4, 5), (9, 7)] = (14, 7) ∧
    concatenate_images_horizontally [(29, 100), (1, 200)] = (58, 200) ∧
    concatSpecFloor [(29, 100), (1, 200)] = (59, 200) := by
  refine ⟨?_, ?_, by decide, by decide, by decide⟩
  · intro imgs hne
    constructor
    · intro p hp
      exact foldr_max_le_of_mem (imgs.map Prod.snd) p.2 (List.mem_map_of_mem _ hp)
    · have hmem := foldr_max_mem (imgs.map Prod.snd) (by simpa using hne)
      obtain ⟨p, hp, hpe⟩ := List.mem_map.mp hmem
      exact ⟨p, hp, hpe⟩
  · intro imgs hc hne hall
    have hmem := foldr_max_mem (imgs.map Prod.snd) (by simpa using hne)
    obtain ⟨p, hp, hpe⟩ := List.mem_map.mp hmem
    have hM : (imgs.map Prod.snd).foldr max 0 = hc := by
      rw [← hpe]
      exact hall p hp
    simp only [concatenate_images_horizontally, hM]
    congr 2
    apply List.map_congr_left
    intro wh hwh
    rw [if_pos (hall wh hwh)]

/-- Witness for `concat_images_dims`: the height bound at [(4,5),(9,7)] and
the equal-height exact concatenation at [(3,5),(4,5)]. -/
theorem concat_images_dims_witness :
    ((4, 5) : Nat × Nat).2 ≤ (concatenate_images_horizontally [(4, 5), (9, 7)]).2 ∧
    concatenate_images_horizontally [(3, 5), (4, 5)] = (7, 5) :=
  ⟨(concat_images_dims.1 [(4, 5), (9, 7)] (by decide)).1 (4, 5) (by decide),
   by
     rw [concat_images_dims.2.1 [(3, 5), (4, 5)] 5 (by decide) (by decide)]
     decide⟩

/-- C3: `build_book.main` performs no `used == 0` check. With
`numbers_per_page = 0` (and start = 1 ≤ max_number = 1) every page batch is
empty, the layout returns used = 0, the cursor never advances past 1, and the
while-loop never terminates for any amount of fuel — no error is surfaced. -/
theorem buildRun_stalls_on_zero_per_page :
    ∀ (fuel pg : Nat) (heights : Nat → Nat) (m : List (Int × Nat)),
      (buildRun heights 0 1 fuel 1 pg m).2.1 = 1 ∧
      (buildRun heights 0 1 fuel 1 pg m).2.2.2 = false := by
  intro fuel
  induction fuel with
  | zero => intro pg heights m; exact ⟨rfl, rfl⟩
  | succ n ih =>
    intro pg heights m
    have hstep : buildStep heights 0 1 1 pg m = (0, m) := rfl
    simp only [buildRun, hstep]
    norm_num
    exact ih (pg + 1) heights m

theorem digitChar_ne_zero (d : Nat) (h1 : 1 ≤ d) (h9 : d < 10) :
    Char.ofNat (48 + d) ≠ '0' := by
  interval_cases d <;> decide

theorem toDecimalAux_cons (fuel : Nat) :
    ∀ (n : Nat) (acc : List Char), n < fuel →
      ∃ c cs, toDecimalAux fuel n acc = c :: cs ∧ (1 ≤ n → c ≠ '0') := by
  induction fuel with
  | zero => intro n acc h; omega
  | succ fuel ih =>
    intro n acc _
    by_cases hn : n < 10
    · refine ⟨Char.ofNat (48 + n % 10), acc, ?_, ?_⟩
      · simp [toDecimalAux, if_pos hn]
      · intro h1
        rw [Nat.mod_eq_of_lt hn]
        exact digitChar_ne_zero n h1 hn
    · have hpos : 0 < n := by omega
      have hlt : n / 10 < fuel := by
        have := Nat.div_lt_self hpos (by norm_num : 1 < 10)
        omega
      obtain ⟨c, cs, hcs, hc0⟩ := ih (n / 10) (Char.ofNat (48 + n % 10) :: acc) hlt
      refine ⟨c, cs, ?_, fun _ => hc0 ?_⟩
      · simp [toDecimalAux, if_neg hn, hcs]
      · have : 10 ≤ n := by omega
        omega
  
theorem toDecimal_cons (n : Nat) :
    ∃ c cs, toDecimal n = c :: cs ∧ (1 ≤ n → c ≠ '0') :=
  toDecimalAux_cons (n + 1) n [] (Nat.lt_succ_self n)

theorem toDecimal_head_eq_zero {n : Nat} (h : (toDecimal n).head? = some '0') :
    n = 0 := by
  obtain ⟨c, cs, hcs, hc0⟩ := toDecimal_cons n
  rw [hcs] at h
  simp only [List.head?_cons, Option.some.injEq] at h
  by_contra hne
  exact hc0 (by omega) h

theorem tryLens_spec (available : List Nat) (s : List Char) :
    ∀ (k n j : Nat), tryLens available s k = some (n, j) →
      n ∈ available ∧ toDecimal n = s.take j ∧ 1 ≤ j ∧ j ≤ k := by
  intro k
  induction k with
  | zero => intro n j h; simp [tryLens] at h
  | succ k ih =>
    intro n j h
    simp only [tryLens] at h
    cases hfind : available.find? (fun m => toDecimal m == s.take (k + 1)) with
    | some m =>
      rw [hfind] at h
      simp only [Option.some.injEq, Prod.mk.injEq] at h
      obtain ⟨rfl, rfl⟩ := h
      refine ⟨List.mem_of_find?_eq_some hfind, ?_, by omega, le_refl _⟩
      have := List.find?_some hfind
      exact eq_of_beq this
    | none =>
      rw [hfind] at h
      obtain ⟨hmem, htd, hj1, hjk⟩ := ih n j h
      exact ⟨hmem, htd, hj1, by omega⟩

theorem decomposeFuel_concat (available : List Nat) :
    ∀ (fuel : Nat) (s : List Char) (comps : List Nat),
      decomposeFuel available fuel s = some comps →
      (comps.map toDecimal).flatten = s := by
  intro fuel
  induction fuel with
  | zero =>
    intro s comps h
    cases s with
    | nil => simp [decomposeFuel] at h; subst h; simp
    | cons c cs => simp [decomposeFuel] at h
  | succ fuel ih =>
    intro s comps h
    cases s with
    | nil => simp [decomposeFuel] at h; subst h; simp
    | cons c cs =>
      simp only [decomposeFuel] at h
      cases htl : tryLens available (c :: cs) (c :: cs).length with
      | none => rw [htl] at h; simp at h
      | some nj =>
        obtain ⟨n, k⟩ := nj
        rw [htl] at h
        have h2 : Option.map (fun x => n :: x)
            (decomposeFuel available fuel ((c :: cs).drop k)) = some comps := h
        cases hrec : decomposeFuel available fuel ((c :: cs).drop k) with
        | none => rw [hrec] at h2; simp at h2
        | some rest =>
          rw [hrec] at h2
          simp only [Option.map_some', Option.some.injEq] at h2
          obtain ⟨hmem, htd, hj1, hjk⟩ := tryLens_spec available (c :: cs) _ n k htl
          subst h2
          simp only [List.map_cons, List.flatten_cons]
          rw [ih _ rest hrec, htd, List.take_append_drop]

/-- C1: whenever the greedy decomposition succeeds, the concatenation of the
components' decimal strings, in order, equals the target's decimal string
exactly — no re-ordering, overlap, or gap. -/
theorem decompose_concat_exact (target : List Char) (available : List Nat)
    (comps : List Nat)
    (h : find_largest_string_decomposition target available = some comps) :
    (comps.map toDecimal).flatten = target :=
  decomposeFuel_concat available target.length target comps h

/-- Witness for `decompose_concat_exact` at target "45", available {45}. -/
theorem decompose_concat_exact_witness :
    find_largest_string_decomposition ['4', '5'] [45] = some [45] ∧
    (([45].map toDecimal)).flatten = ['4', '5'] :=
  ⟨by decide, decompose_concat_exact ['4', '5'] [45] [45] (by decide)⟩

theorem decomposeFuel_mem (available : List Nat) :
    ∀ (fuel : Nat) (s : List Char) (comps : List Nat),
      decomposeFuel available fuel s = some comps →
      ∀ c ∈ comps, c ∈ available := by
  intro fuel
  induction fuel with
  | zero =>
    intro s comps h
    cases s with
    | nil => simp [decomposeFuel] at h; subst h; simp
    | cons c cs => simp [decomposeFuel] at h
  | succ fuel ih =>
    intro s comps h
    cases s with
    | nil => simp [decomposeFuel] at h; subst h; simp
    | cons c cs =>
      simp only [decomposeFuel] at h
      cases htl : tryLens available (c :: cs) (c :: cs).length with
      | none => rw [htl] at h; simp at h
      | some nj =>
        obtain ⟨n, k⟩ := nj
        rw [htl] at h
        have h2 : Option.map (fun x => n :: x)
            (decomposeFuel available fuel ((c :: cs).drop k)) = some comps := h
        cases hrec : decomposeFuel available fuel ((c :: cs).drop k) with
        | none => rw [hrec] at h2; simp at h2
        | some rest =>
          rw [hrec] at h2
          simp only [Option.map_some', Option.some.injEq] at h2
          obtain ⟨hmem, _, _, _⟩ := tryLens_spec available (c :: cs) _ n k htl
          subst h2
          intro x hx
          rcases List.mem_cons.mp hx with rfl | hx
          · exact hmem
          · exact ih _ rest hrec x hx

/-- C10: every component returned by the greedy decomposition is a member of
the availability set (matched via its canonical decimal string); a matched
chunk whose first character is '0' must be the single component 0 with chunk
length 1 (so no chunk of length > 1 ever begins with '0'); and a target
beginning with '0' cannot be decomposed at all when 0 is unavailable. -/
theorem decompose_no_leading_zero_chunks :
    (∀ (target : List Char) (available comps : List Nat),
        find_largest_string_decomposition target available = some comps →
        ∀ c ∈ comps, c ∈ available) ∧
    (∀ (available : List Nat) (s : List Char) (k n j : Nat),
        tryLens available s k = some (n, j) → j ≤ s.length →
        (s.take j).head? = some '0' → n = 0 ∧ j = 1) ∧
    (∀ (target : List Char) (available : List Nat),
        (0 : Nat) ∉ available → target.head? = some '0' →
        find_largest_string_decomposition target available = none) := by
  refine ⟨?_, ?_, ?_⟩
  · intro target available comps h
    exact decomposeFuel_mem available target.length target comps h
  · intro available s k n j htl hjlen hhead
    obtain ⟨hmem, htd, hj1, hjk⟩ := tryLens_spec available s k n j htl
    have hzero : n = 0 := toDecimal_head_eq_zero (by rw [htd]; exact hhead)
    subst hzero
    refine ⟨rfl, ?_⟩
    have h1 : s.take j = ['0'] := by rw [← htd]; decide
    have h2 : (s.take j).length = j := by simp [List.length_take]; omega
    rw [h1] at h2
    simp at h2
    omega
  · intro target available h0 hhead
    cases target with
    | nil => simp at hhead
    | cons c cs =>
      simp only [List.head?_cons, Option.some.injEq] at hhead
      subst hhead
      show decomposeFuel available ('0' :: cs).length ('0' :: cs) = none
      rw [show ('0' :: cs).length = cs.length + 1 from rfl]
      simp only [decomposeFuel]
      cases htl : tryLens available ('0' :: cs) ('0' :: cs).length with
      | none => rfl
      | some nj =>
        obtain ⟨n, j⟩ := nj
        exfalso
        obtain ⟨hmem, htd, hj1, hjk⟩ := tryLens_spec available ('0' :: cs) _ n j htl
        have hhd : (('0' :: cs).take j).head? = some '0' := by
          cases j with
          | zero => omega
          | succ j => simp
        have hn0 : n = 0 := toDecimal_head_eq_zero (by rw [htd]; exact hhd)
        subst hn0
        exact h0 hmem

/-- Witness for `decompose_no_leading_zero_chunks`: part 1 at target "45" with
available {45, 0}; part 2 at the matcher state s = "0", available {0}; part 3
at target "01" with available {1}. -/
theorem decompose_no_leading_zero_chunks_witness :
    (45 ∈ ([45, 0] : List Nat)) ∧ ((0 : Nat) = 0 ∧ (1 : Nat) = 1) ∧
    find_largest_string_decomposition ['0', '1'] [1] = none :=
  ⟨decompose_no_leading_zero_chunks.1 ['4', '5'] [45, 0] [45] (by decide) 45 (by decide),
   decompose_no_leading_zero_chunks.2.1 [0] ['0'] 1 0 1 (by decide) (by decide) (by decide),
   decompose_no_leading_zero_chunks.2.2 ['0', '1'] [1] (by decide) (by decide)⟩

theorem flatten_replicate_nil (m : Nat) :
    (List.replicate m ([] : List γ)).flatten = [] := by
  induction m with
  | zero => rfl
  | succ m ih => simpa [List.replicate_succ] using ih

theorem modify_front (f : List γ → List γ) :
    ∀ (front : List (List γ)) (c : List γ) (rest : List (List γ)),
      List.modify f front.length (front ++ c :: rest) = front ++ f c :: rest := by
  intro front
  induction front with
  | nil => intro c rest; rfl
  | cons x xs ih =>
    intro c rest
    simpa [List.modify] using ih c rest

theorem modify_front1 (f : List γ → List γ) :
    ∀ (front : List (List γ)) (c c' : List γ) (rest : List (List γ)),
      List.modify f (front.length + 1) (front ++ c :: c' :: rest) =
        front ++ c :: f c' :: rest := by
  intro front
  induction front with
  | nil => intro c c' rest; rfl
  | cons x xs ih =>
    intro c c' rest
    simpa [List.modify] using ih c c' rest

/-- Master invariant of the column-fill loop. If the columns are in the
canonical shape `front ++ current :: empty-suffix` with the loop index at
`front.length`, then the loop places some prefix of length `k` of the
remaining items, appending them in input order. -/
theorem distributeAux_structured {α β : Type _} (n t : Nat) :
    ∀ (items : List (α × Nat × β)) (front : List (List (α × β)))
      (cur : List (α × β)) (curH used : Nat),
      front.length + 1 ≤ n →
      ∃ k cols',
        distributeAux n t items
            (front ++ cur :: List.replicate (n - front.length - 1) [])
            front.length curH used = (cols', used + k) ∧
        k ≤ items.length ∧
        cols'.flatten =
          front.flatten ++ cur ++ (items.take k).map (fun x => (x.1, x.2.2)) ∧
        cols'.length = n := by
  intro items
  induction items with
  | nil =>
    intro front cur curH used hn
    refine ⟨0, front ++ cur :: List.replicate (n - front.length - 1) [], rfl,
      Nat.le_refl 0, ?_, ?_⟩
    · simp [flatten_replicate_nil]
    · simp
      omega
  | cons x rest ih =>
    obtain ⟨a, h, p⟩ := x
    intro front cur curH used hn
    by_cases hov : t < curH + h
    · by_cases hlast : n - 1 ≤ front.length
      · refine ⟨0, front ++ cur :: List.replicate (n - front.length - 1) [], ?_,
          Nat.zero_le _, ?_, ?_⟩
        · simp only [distributeAux, if_pos hov, if_pos hlast, Nat.add_zero]
        · simp [flatten_replicate_nil]
        · simp
          omega
      · have hrep : List.replicate (n - front.length - 1) ([] : List (α × β)) =
            [] :: List.replicate (n - front.length - 2) [] := by
          rw [show n - front.length - 1 = (n - front.length - 2) + 1 by omega,
            List.replicate_succ]
        have hmod : List.modify (fun col => col ++ [(a, p)]) (front.length + 1)
            (front ++ cur :: List.replicate (n - front.length - 1) []) =
            front ++ cur :: [(a, p)] :: List.replicate (n - front.length - 2) [] := by
          rw [hrep, modify_front1]
          simp
        obtain ⟨k', cols', heq, hk, hflat, hlen⟩ :=
          ih (front ++ [cur]) [(a, p)] h (used + 1) (by simp; omega)
        refine ⟨k' + 1, cols', ?_, by simp; omega, ?_, hlen⟩
        · simp only [distributeAux, if_pos hov, if_neg hlast, hmod]
          have hc : n - front.length - 2 = n - (front ++ [cur]).length - 1 := by
            simp
            omega
          have harg : front ++ cur :: [(a, p)] ::
              List.replicate (n - front.length - 2) ([] : List (α × β)) =
              (front ++ [cur]) ++ [(a, p)] ::
                List.replicate (n - (front ++ [cur]).length - 1) [] := by
            rw [hc]
            simp
          rw [harg, show front.length + 1 = (front ++ [cur]).length by simp]
          rw [heq]
          congr 1
          omega
        · rw [hflat]
          simp
    · obtain ⟨k', cols', heq, hk, hflat, hlen⟩ :=
        ih front (cur ++ [(a, p)]) (curH + h) (used + 1) hn
      have hmod : List.modify (fun col => col ++ [(a, p)]) front.length
          (front ++ cur :: List.replicate (n - front.length - 1) []) =
          front ++ (cur ++ [(a, p)]) :: List.replicate (n - front.length - 1) [] :=
        modify_front _ front cur _
      refine ⟨k' + 1, cols', ?_, by simp; omega, ?_, hlen⟩
      · simp only [distributeAux, if_neg hov, hmod]
        rw [heq]
        congr 1
        omega
      · rw [hflat]
        simp

/-- The layout result in terms of the initial all-empty column state. -/
theorem distribute_eq_structured {α β : Type _} (items : List (α × Nat × β))
    (n t : Nat) (hn : 1 ≤ n) :
    ∃ k cols', distribute_items_to_columns items n t = (cols', k) ∧
      k ≤ items.length ∧
      cols'.flatten = (items.take k).map (fun x => (x.1, x.2.2)) ∧
      cols'.length = n := by
  obtain ⟨k, cols', heq, hk, hflat, hlen⟩ :=
    distributeAux_structured n t items [] [] 0 0 (by simp; omega)
  refine ⟨k, cols', ?_, hk, by simpa using hflat, hlen⟩
  unfold distribute_items_to_columns
  have hrep : List.replicate n ([] : List (α × β)) =
      [] :: List.replicate (n - 1) [] := by
    cases n with
    | zero => exact absurd hn (by omega)
    | succ m => simp [List.replicate_succ]
  rw [hrep]
  simpa using heq

/-- C6: with numColumns ≥ 1, the items placed are exactly the strict prefix
items[0:used] of the input in input order — concatenating the returned columns
in column order yields items[0:used] (projected to (item, payload) cells) —
and used never exceeds the input length. -/
theorem distribute_prefix_order {α β : Type _} (items : List (α × Nat × β))
    (numColumns targetHeight : Nat) (hn : 1 ≤ numColumns) :
    ((distribute_items_to_columns items numColumns targetHeight).1).flatten =
      (items.take (distribute_items_to_columns items numColumns targetHeight).2).map
        (fun x => (x.1, x.2.2)) ∧
    (distribute_items_to_columns items numColumns targetHeight).2 ≤ items.length := by
  obtain ⟨k, cols', heq, hk, hflat, hlen⟩ :=
    distribute_eq_structured items numColumns targetHeight hn
  rw [heq]
  exact ⟨hflat, hk⟩

/-- Witness for `distribute_prefix_order` at two concrete items, two columns. -/
theorem distribute_prefix_order_witness :
    (1 : Nat) ≤ 2 ∧
    ((distribute_items_to_columns
        [((0 : Nat), 40, (0 : Nat)), (1, 80, 0)] 2 100).1).flatten =
      (([((0 : Nat), 40, (0 : Nat)), (1, 80, 0)]).take
        (distribute_items_to_columns
          [((0 : Nat), 40, (0 : Nat)), (1, 80, 0)] 2 100).2).map
        (fun x => (x.1, x.2.2)) :=
  ⟨by decide, (distribute_prefix_order [((0 : Nat), 40, (0 : Nat)), (1, 80, 0)]
      2 100 (by decide)).1⟩

theorem distributeAux_used_le {α β : Type _} (n t : Nat) :
    ∀ (items : List (α × Nat × β)) (cols : List (List (α × β)))
      (idx curH used : Nat),
      used ≤ (distributeAux n t items cols idx curH used).2 := by
  intro items
  induction items with
  | nil => intro cols idx curH used; simp [distributeAux]
  | cons x rest ih =>
    obtain ⟨a, h, p⟩ := x
    intro cols idx curH used
    by_cases hov : t < curH + h
    · by_cases hlast : n - 1 ≤ idx
      · simp only [distributeAux, if_pos hov, if_pos hlast]
        exact Nat.le_refl used
      · simp only [distributeAux, if_pos hov, if_neg hlast]
        exact le_trans (by omega) (ih _ _ _ (used + 1))
    · simp only [distributeAux, if_neg hov]
      exact le_trans (by omega) (ih _ _ _ (used + 1))

/-- With at least two columns, a nonempty item list always yields used ≥ 1:
the first item is placed either into column 0 or into the freshly advanced
column 1. -/
theorem distribute_used_pos {α β : Type _} (items : List (α × Nat × β))
    (n t : Nat) (hne : items ≠ []) (hn : 2 ≤ n) :
    1 ≤ (distribute_items_to_columns items n t).2 := by
  obtain ⟨x, rest, rfl⟩ := List.exists_cons_of_ne_nil hne
  obtain ⟨a, h, p⟩ := x
  unfold distribute_items_to_columns
  by_cases hov : t < 0 + h
  · have hlast : ¬ (n - 1 ≤ 0) := by omega
    simp only [distributeAux, if_pos hov, if_neg hlast]
    exact le_trans (by omega) (distributeAux_used_le n t rest _ _ _ 1)
  · simp only [distributeAux, if_neg hov]
    exact le_trans (by omega) (distributeAux_used_le n t rest _ _ _ 1)

/-- Height invariant of the column-fill loop over height-tagged items: every
column of the result either fits within the target height or is a singleton
holding one oversized item. -/
theorem distributeAux_heights {α β : Type _} (n t : Nat) :
    ∀ (items : List ((α × Nat) × Nat × β)) (front : List (List ((α × Nat) × β)))
      (cur : List ((α × Nat) × β)) (curH used : Nat),
      front.length + 1 ≤ n →
      (∀ x ∈ items, x.1.2 = x.2.1) →
      (∀ c ∈ front, colHeight c ≤ t ∨ ∃ x, c = [x] ∧ t < x.1.2) →
      colHeight cur = curH →
      (colHeight cur ≤ t ∨ ∃ x, cur = [x] ∧ t < x.1.2) →
      ∀ c ∈ (distributeAux n t items
          (front ++ cur :: List.replicate (n - front.length - 1) [])
          front.length curH used).1,
        colHeight c ≤ t ∨ ∃ x, c = [x] ∧ t < x.1.2 := by
  intro items
  induction items with
  | nil =>
    intro front cur curH used hn hco hfront hcur hcurgood c hc
    simp only [distributeAux] at hc
    rcases List.mem_append.mp hc with hc | hc
    · exact hfront c hc
    · rcases List.mem_cons.mp hc with rfl | hc
      · exact hcurgood
      · have := List.eq_of_mem_replicate hc
        subst this
        left
        simp [colHeight]
  | cons x rest ih =>
    obtain ⟨a, h, p⟩ := x
    intro front cur curH used hn hco hfront hcur hcurgood c hc
    have hah : a.2 = h := hco (a, h, p) (List.mem_cons_self _ _)
    by_cases hov : t < curH + h
    · by_cases hlast : n - 1 ≤ front.length
      · simp only [distributeAux, if_pos hov, if_pos hlast] at hc
        rcases List.mem_append.mp hc with hc | hc
        · exact hfront c hc
        · rcases List.mem_cons.mp hc with rfl | hc
          · exact hcurgood
          · have := List.eq_of_mem_replicate hc
            subst this
            left
            simp [colHeight]
      · have hrep : List.replicate (n - front.length - 1)
            ([] : List ((α × Nat) × β)) =
            [] :: List.replicate (n - front.length - 2) [] := by
          rw [show n - front.length - 1 = (n - front.length - 2) + 1 by omega,
            List.replicate_succ]
        have hmod : List.modify (fun col => col ++ [(a, p)]) (front.length + 1)
            (front ++ cur :: List.replicate (n - front.length - 1) []) =
            front ++ cur :: [(a, p)] ::
              List.replicate (n - front.length - 2) [] := by
          rw [hrep, modify_front1]
          simp
        simp only [distributeAux, if_pos hov, if_neg hlast, hmod] at hc
        have hc2 : n - front.length - 2 = n - (front ++ [cur]).length - 1 := by
          simp
          omega
        have harg : front ++ cur :: [(a, p)] ::
            List.replicate (n - front.length - 2) ([] : List ((α × Nat) × β)) =
            (front ++ [cur]) ++ [(a, p)] ::
              List.replicate (n - (front ++ [cur]).length - 1) [] := by
          rw [hc2]
          simp
        rw [harg, show front.length + 1 = (front ++ [cur]).length by simp] at hc
        refine ih (front ++ [cur]) [(a, p)] h (used + 1) (by simp; omega)
          ?_ ?_ ?_ ?_ c hc
        · intro y hy
          exact hco y (List.mem_cons_of_mem _ hy)
        · intro d hd
          rcases List.mem_append.mp hd with hd | hd
          · exact hfront d hd
          · rw [List.mem_singleton.mp hd]
            exact hcurgood
        · simp [colHeight, hah]
        · rcases le_or_lt h t with hle | hgt
          · left
            simp [colHeight, hah]
            exact hle
          · right
            exact ⟨(a, p), rfl, by simpa [hah] using hgt⟩
    · have hmod := modify_front (fun col => col ++ [(a, p)]) front cur
        (List.replicate (n - front.length - 1) [])
      simp only [distributeAux, if_neg hov, hmod] at hc
      refine ih front (cur ++ [(a, p)]) (curH + h) (used + 1) hn
        ?_ hfront ?_ ?_ c hc
      · intro y hy
        exact hco y (List.mem_cons_of_mem _ hy)
      · show colHeight (cur ++ [(a, p)]) = curH + h
        rw [← hcur, ← hah]
        simp [colHeight]
      · left
        show colHeight (cur ++ [(a, p)]) ≤ t
        have hsum : colHeight (cur ++ [(a, p)]) = curH + h := by
          rw [← hcur, ← hah]
          simp [colHeight]
        omega

/-- C7: for every input to the layout with numColumns ≥ 1 (items tagged with
their own heights so that column heights are measurable on the output):
used ≤ len(items); the returned columns hold exactly `used` cells in total;
and every returned column's accumulated height is at most targetHeight,
except possibly a column consisting of a single oversized item. -/
theorem distribute_column_invariants {α β : Type _} (items : List (α × Nat × β))
    (numColumns targetHeight : Nat) (hn : 1 ≤ numColumns) :
    (distribute_items_to_columns (items.map (fun x => ((x.1, x.2.1), x.2)))
        numColumns targetHeight).2 ≤ items.length ∧
    (((distribute_items_to_columns (items.map (fun x => ((x.1, x.2.1), x.2)))
        numColumns targetHeight).1).map List.length).sum =
      (distribute_items_to_columns (items.map (fun x => ((x.1, x.2.1), x.2)))
        numColumns targetHeight).2 ∧
    ∀ c ∈ (distribute_items_to_columns (items.map (fun x => ((x.1, x.2.1), x.2)))
        numColumns targetHeight).1,
      colHeight c ≤ targetHeight ∨ ∃ x, c = [x] ∧ targetHeight < x.1.2 := by
  have hrep : List.replicate numColumns ([] : List ((α × Nat) × β)) =
      [] :: List.replicate (numColumns - 1) [] := by
    cases numColumns with
    | zero => exact absurd hn (by omega)
    | succ m => simp [List.replicate_succ]
  obtain ⟨k, cols', heq, hk, hflat, hlen⟩ :=
    distribute_eq_structured (items.map (fun x => ((x.1, x.2.1), x.2)))
      numColumns targetHeight hn
  have hklen : k ≤ items.length := by simpa using hk
  refine ⟨by rw [heq]; exact hklen, ?_, ?_⟩
  · rw [heq]
    have h1 : cols'.flatten.length = k := by
      rw [hflat]
      simp [List.length_take]
      omega
    rw [← List.length_flatten]
    exact h1
  · intro c hc
    rw [show distribute_items_to_columns (items.map (fun x => ((x.1, x.2.1), x.2)))
        numColumns targetHeight =
        distributeAux numColumns targetHeight
          (items.map (fun x => ((x.1, x.2.1), x.2)))
          ([] :: List.replicate (numColumns - 1) []) 0 0 0 from by
      simp only [distribute_items_to_columns, hrep]] at hc
    refine distributeAux_heights numColumns targetHeight
      (items.map (fun x => ((x.1, x.2.1), x.2))) [] [] 0 0
      (by simp; omega) ?_ ?_ rfl (Or.inl (by simp [colHeight])) c hc
    · intro x hx
      obtain ⟨y, hy, rfl⟩ := List.mem_map.mp hx
      rfl
    · intro d hd
      exact absurd hd (List.not_mem_nil d)

/-- Witness for `distribute_column_invariants` at two concrete items, one of
them oversized, with two columns. -/
theorem distribute_column_invariants_witness :
    (1 : Nat) ≤ 2 ∧
    (distribute_items_to_columns
        (([((0 : Nat), 40, (0 : Nat)), (1, 150, 0)]).map
          (fun x => ((x.1, x.2.1), x.2))) 2 100).2 ≤ 2 :=
  ⟨by decide,
   (distribute_column_invariants [((0 : Nat), 40, (0 : Nat)), (1, 150, 0)]
      2 100 (by decide)).1⟩

/-- C9: a nonempty item batch with at least two columns always places at least
one item (the first item goes into column 0 or into the freshly advanced
column 1); consequently every iteration of the pagination loop of
`build_book.main` (fixed five-column configuration) strictly increases the
cursor whenever at least one number is requested per page, and the loop
terminates (the loop condition becomes false given cursor-to-max fuel). -/
theorem pagination_progress_and_termination :
    (∀ (α β : Type) (items : List (α × Nat × β)) (n t : Nat),
        items ≠ [] → 2 ≤ n → 1 ≤ (distribute_items_to_columns items n t).2) ∧
    (∀ (heights : Nat → Nat) (npp maxN cur pg : Nat) (m : List (Int × Nat)),
        1 ≤ npp → cur ≤ maxN →
        cur < cur + (buildStep heights npp maxN cur pg m).1) ∧
    (∀ (heights : Nat → Nat) (npp maxN fuel cur pg : Nat) (m : List (Int × Nat)),
        1 ≤ npp → maxN < cur + fuel →
        (buildRun heights npp maxN fuel cur pg m).2.2.2 = true) := by
  have hstep : ∀ (heights : Nat → Nat) (npp maxN cur pg : Nat)
      (m : List (Int × Nat)), 1 ≤ npp → cur ≤ maxN →
      1 ≤ (buildStep heights npp maxN cur pg m).1 := by
    intro heights npp maxN cur pg m hnpp hle
    have hne : pageItems heights cur (min npp (maxN - cur + 1)) ≠ [] := by
      apply List.ne_nil_of_length_pos
      simp [pageItems]
      omega
    exact distribute_used_pos _ GRID_COLUMNS COLUMN_TARGET_HEIGHT_PX hne (by decide)
  refine ⟨fun α β items n t hne hn => distribute_used_pos items n t hne hn,
    fun heights npp maxN cur pg m hnpp hle => by
      have := hstep heights npp maxN cur pg m hnpp hle
      omega, ?_⟩
  intro heights npp maxN fuel
  induction fuel with
  | zero =>
    intro cur pg m hnpp hlt
    simp [buildRun, decide_eq_true_eq]
    omega
  | succ f ih =>
    intro cur pg m hnpp hlt
    by_cases hdone : maxN < cur
    · simp [buildRun, if_pos hdone]
    · simp only [buildRun, if_neg hdone]
      apply ih
      · exact hnpp
      · have h1 : 1 ≤ (buildStep heights npp maxN cur pg m).1 :=
          hstep heights npp maxN cur pg m hnpp (by omega)
        omega

/-- Witness for `pagination_progress_and_termination` at concrete inputs. -/
theorem pagination_progress_and_termination_witness :
    1 ≤ (distribute_items_to_columns [((0 : Nat), 700, (0 : Nat))] 5 640).2 ∧
    1 < 1 + (buildStep (fun _ => 700) 2 3 1 0 []).1 ∧
    (buildRun (fun _ => 700) 2 3 5 1 0 []).2.2.2 = true :=
  ⟨pagination_progress_and_termination.1 Nat Nat [((0 : Nat), 700, (0 : Nat))]
      5 640 (by decide) (by decide),
   pagination_progress_and_termination.2.1 (fun _ => 700) 2 3 1 0 []
      (by decide) (by decide),
   pagination_progress_and_termination.2.2 (fun _ => 700) 2 3 5 1 0 []
      (by decide) (by decide)⟩

theorem lookup_append_left {γ : Type _} [BEq γ] (m m2 : List (γ × Nat)) (b : γ)
    (p : Nat) (h : m.lookup b = some p) : (m ++ m2).lookup b = some p := by
  induction m with
  | nil => simp [List.lookup] at h
  | cons kv rest ih =>
    obtain ⟨k, v⟩ := kv
    cases hbk : b == k
    · simp [List.lookup, hbk] at h ⊢
      exact ih h
    · simp [List.lookup, hbk] at h ⊢
      exact h

theorem recordRange1_preserves (m : List (Int × Nat)) (r : Int) (page : Nat)
    (b : Int) (p : Nat) (h : m.lookup b = some p) :
    (recordRange1 m r page).lookup b = some p := by
  unfold recordRange1
  by_cases hs : (m.lookup r).isSome
  · simpa [if_pos hs] using h
  · simp only [if_neg hs]
    exact lookup_append_left m [(r, page)] b p h

theorem foldl_recordRange1_preserves (page : Nat) :
    ∀ (rs : List Int) (m : List (Int × Nat)) (b : Int) (p : Nat),
      m.lookup b = some p →
      (rs.foldl (fun acc r => recordRange1 acc r page) m).lookup b = some p := by
  intro rs
  induction rs with
  | nil => intro m b p h; simpa using h
  | cons r rest ih =>
    intro m b p h
    simp only [List.foldl_cons]
    exact ih _ b p (recordRange1_preserves m r page b p h)

theorem buildStep_preserves (heights : Nat → Nat) (npp maxN cur pg : Nat)
    (m : List (Int × Nat)) (b : Int) (p : Nat) (h : m.lookup b = some p) :
    ((buildStep heights npp maxN cur pg m).2).lookup b = some p :=
  foldl_recordRange1_preserves (pg + 1) _ m b p h

/-- C8: the range_to_page table is first-write-wins throughout the pagination
run — once a 1000-block has a recorded first page, no later page ever
overwrites it — and the finalized TOC entries are emitted in ascending block
order. -/
theorem toc_first_write_wins :
    (∀ (heights : Nat → Nat) (npp maxN fuel cur pg : Nat)
        (m : List (Int × Nat)) (b : Int) (p : Nat),
        m.lookup b = some p →
        ((buildRun heights npp maxN fuel cur pg m).1).lookup b = some p) ∧
    (∀ (m : List (Int × Nat)) (maxN : Nat),
        List.Sorted (· ≤ ·) ((finalizeToc m maxN).map (fun e => e.1))) := by
  constructor
  · intro heights npp maxN fuel
    induction fuel with
    | zero => intro cur pg m b p h; simpa [buildRun] using h
    | succ f ih =>
      intro cur pg m b p h
      by_cases hdone : maxN < cur
      · simpa [buildRun, if_pos hdone] using h
      · simp only [buildRun, if_neg hdone]
        exact ih _ _ _ b p (buildStep_preserves heights npp maxN cur pg m b p h)
  · intro m maxN
    have htrans : ∀ (a b c : Int),
        decide (a ≤ b) = true → decide (b ≤ c) = true → decide (a ≤ c) = true := by
      intro a b c hab hbc
      simp only [decide_eq_true_eq] at hab hbc ⊢
      omega
    have htot : ∀ (a b : Int), (decide (a ≤ b) || decide (b ≤ a)) = true := by
      intro a b
      simp only [Bool.or_eq_true, decide_eq_true_eq]
      omega
    have hsorted := List.sorted_mergeSort htrans htot (m.map Prod.fst)
    simp only [finalizeToc, List.map_map]
    refine List.Pairwise.map _ ?_ hsorted
    intro a b hab
    simp only [decide_eq_true_eq] at hab
    simp only [Function.comp]
    omega

/-- Witness for `toc_first_write_wins`: a pre-recorded block survives a run
that touches it again, and a concrete TOC is emitted in ascending order. -/
theorem toc_first_write_wins_witness :
    ((buildRun (fun _ => 100) 2 5 2 1 0 [((0 : Int), 3)]).1).lookup 0 = some 3 ∧
    List.Sorted (· ≤ ·)
      ((finalizeToc [((0 : Int), 3), (2, 4)] 5000).map (fun e => e.1)) :=
  ⟨toc_first_write_wins.1 (fun _ => 100) 2 5 2 1 0 [((0 : Int), 3)] 0 3 (by decide),
   toc_first_write_wins.2 [((0 : Int), 3), (2, 4)] 5000⟩
